import Mathlib

/-
Verification of the MPMCQueue bounded multi-producer multi-consumer queue
(src/MPMCQueue.h) against its specification.

Modelling choices. The queue is embedded at the level of its linearized
(sequentially consistent, operation-atomic) semantics: a state holds the
capacity, the ring of slots (each an unsigned turn counter plus optional
element storage: some v exactly when a constructed element lives in the
raw storage bytes), and the head and tail ticket counters. The counters
are unbounded Nat, matching the spec's model of head/tail as unbounded
monotonic counters.

The blocking operations (emplace / pop) spin on the claimed slot's turn;
in a quiescent interleaving the spin either passes immediately or never
passes, so they are embedded as Option-valued functions, none meaning the
call does not return. The non-blocking operations (try_emplace / try_pop)
are embedded as their sequential reduction: with no concurrent
interference the compare_exchange_strong always succeeds and the reloaded
head (resp. tail) always equals the previously read value, so the retry
loop resolves in one iteration: success when the slot's turn matches the
expected producer (resp. consumer) turn, failure otherwise. Reading the
element storage when no element is constructed (undefined behaviour in
the source) is modelled by the Option in Slot.move.
-/

namespace MPMC

/-- One ring cell: an atomic turn counter and storage for one element.
Mirrors MPMCQueue<T>::Slot (src/MPMCQueue.h lines 186-210). -/
structure Slot (α : Type) where
  turn : Nat
  storage : Option α
deriving DecidableEq

/-- Slot::construct: placement-new of the element into storage. -/
def Slot.construct (s : Slot α) (v : α) : Slot α :=
  { s with storage := some v }

/-- Slot::destroy: run the element's destructor; storage becomes raw again. -/
def Slot.destroy (s : Slot α) : Slot α :=
  { s with storage := none }

/-- Slot::move: read the element out of storage. The source reinterprets the
raw bytes as T&&; when no element is constructed this is undefined
behaviour, modelled here as none. -/
def Slot.move (s : Slot α) : Option α :=
  s.storage

/-- Number of destroy() calls made by the Slot destructor
(src/MPMCQueue.h lines 187-191): destroy iff turn & 1. -/
def Slot.dtorCalls (s : Slot α) : Nat :=
  if s.turn % 2 = 1 then 1 else 0

/-- The queue state: capacity, ring of slots, head and tail tickets.
Mirrors the data members of MPMCQueue<T> (src/MPMCQueue.h lines 212-219). -/
structure MPMCQueue (α : Type) where
  capacity : Nat
  slots : List (Slot α)
  head : Nat
  tail : Nat
deriving DecidableEq

namespace MPMCQueue

variable {α : Type}

/-- idx(i) = i % capacity_ (src/MPMCQueue.h line 180). -/
def idx (q : MPMCQueue α) (i : Nat) : Nat :=
  i % q.capacity

/-- turn(i) = i / capacity_ (src/MPMCQueue.h line 182). -/
def turn (q : MPMCQueue α) (i : Nat) : Nat :=
  i / q.capacity

/-- The slot at ring index i (slots_[i]). -/
def slot (q : MPMCQueue α) (i : Nat) : Slot α :=
  q.slots.getD i { turn := 0, storage := none }

/-- Construction errors (src/MPMCQueue.h lines 45-58). -/
inductive CtorError where
  | invalidCapacity
  | badAlloc
deriving DecidableEq

/-- The constructor MPMCQueue(capacity) (src/MPMCQueue.h lines 43-76):
reject capacity < 1 with invalid_argument, otherwise allocate the ring and
placement-new every slot (turn = 0, storage uninitialized), head = tail = 0.
Allocation success is assumed (bad_alloc is not modelled as a state). -/
def mkQueue (α : Type) (capacity : Nat) : Except CtorError (MPMCQueue α) :=
  if capacity < 1 then
    .error .invalidCapacity
  else
    .ok { capacity := capacity
          slots := List.replicate capacity { turn := 0, storage := none }
          head := 0
          tail := 0 }

/-- Blocking emplace (src/MPMCQueue.h lines 89-98): fetch_add on head_,
spin until the slot's turn equals turn(head) * 2, construct the element,
store turn(head) * 2 + 1. In the quiescent embedding the spin passes now
or never; none models a call that never returns. -/
def emplace (q : MPMCQueue α) (v : α) : Option (MPMCQueue α) :=
  let head := q.head
  let i := q.idx head
  if (q.slot i).turn = q.turn head * 2 then
    some { q with
           head := head + 1
           slots := q.slots.set i
             { ((q.slot i).construct v) with turn := q.turn head * 2 + 1 } }
  else
    none

/-- Non-blocking try_emplace (src/MPMCQueue.h lines 100-120), sequential
reduction of the CAS loop: if the slot's turn equals turn(head) * 2 the
CAS succeeds and the element is constructed; otherwise the reloaded head
equals the previous head and the call returns false. -/
def try_emplace (q : MPMCQueue α) (v : α) : Bool × MPMCQueue α :=
  let head := q.head
  let i := q.idx head
  if (q.slot i).turn = q.turn head * 2 then
    (true, { q with
             head := head + 1
             slots := q.slots.set i
               { ((q.slot i).construct v) with turn := q.turn head * 2 + 1 } })
  else
    (false, q)

/-- push(v) forwards to emplace (src/MPMCQueue.h lines 122-133). -/
def push (q : MPMCQueue α) (v : α) : Option (MPMCQueue α) :=
  q.emplace v

/-- try_push(v) forwards to try_emplace (src/MPMCQueue.h lines 135-146). -/
def try_push (q : MPMCQueue α) (v : α) : Bool × MPMCQueue α :=
  q.try_emplace v

/-- Blocking pop (src/MPMCQueue.h lines 148-156): fetch_add on tail_, spin
until the slot's turn equals turn(tail) * 2 + 1, move the element out,
destroy it, store turn(tail) * 2 + 2. Returns the moved element and the
new state; none models a call that never returns (or reads unconstructed
storage, which the turn protocol excludes in reachable states). -/
def pop (q : MPMCQueue α) : Option (α × MPMCQueue α) :=
  let tail := q.tail
  let i := q.idx tail
  if (q.slot i).turn = q.turn tail * 2 + 1 then
    (q.slot i).move.map fun v =>
      (v, { q with
            tail := tail + 1
            slots := q.slots.set i
              { ((q.slot i).destroy) with turn := q.turn tail * 2 + 2 } })
  else
    none

/-- Non-blocking try_pop (src/MPMCQueue.h lines 158-177), sequential
reduction of the CAS loop. Takes the caller's out-parameter value v0 and
returns (success flag, final value of the out-parameter, new state). On
the failure path the source never assigns to v, so v0 is returned. The
unconstructed-storage case (excluded by the turn protocol in reachable
states) leaves the out-parameter unconstrained; we return v0 there. -/
def try_pop (q : MPMCQueue α) (v0 : α) : Bool × α × MPMCQueue α :=
  let tail := q.tail
  let i := q.idx tail
  if (q.slot i).turn = q.turn tail * 2 + 1 then
    let q' : MPMCQueue α :=
      { q with
        tail := tail + 1
        slots := q.slots.set i
          { ((q.slot i).destroy) with turn := q.turn tail * 2 + 2 } }
    match (q.slot i).move with
    | some w => (true, w, q')
    | none => (true, v0, q')
  else
    (false, v0, q)

/-- Total number of destroy() calls made by the queue destructor
(src/MPMCQueue.h lines 78-83): it runs each slot's destructor once. -/
def dtorTotal (q : MPMCQueue α) : Nat :=
  (q.slots.map Slot.dtorCalls).sum

/-- Number of slots whose turn is odd (the full slots). -/
def countOdd (q : MPMCQueue α) : Nat :=
  q.slots.countP fun s => s.turn % 2 == 1

end MPMCQueue

/-- countCong n c i: the number of tickets k < n with k % c = i, i.e. the
number of operations among tickets 0..n-1 that landed on ring index i. -/
def countCong : Nat → Nat → Nat → Nat
  | 0, _, _ => 0
  | n + 1, c, i => countCong n c i + (if n % c = i then 1 else 0)

theorem countCong_succ (n c i : Nat) :
    countCong (n + 1) c i = countCong n c i + (if n % c = i then 1 else 0) :=
  rfl

/-- Closed form: among tickets 0..n-1, ring index i < c is hit n / c times,
plus once more when i is below the residue n % c. -/
theorem countCong_eq (c i : Nat) (hc : 0 < c) (hi : i < c) (n : Nat) :
    countCong n c i = n / c + (if i < n % c then 1 else 0) := by
  induction n with
  | zero => simp [countCong]
  | succ n ih =>
    have hdm : c * (n / c) + n % c = n := Nat.div_add_mod n c
    have hdm1 : c * ((n + 1) / c) + (n + 1) % c = n + 1 := Nat.div_add_mod (n + 1) c
    have hmlt : n % c < c := Nat.mod_lt n hc
    have hmlt1 : (n + 1) % c < c := Nat.mod_lt (n + 1) hc
    have hdivle : n / c ≤ (n + 1) / c := Nat.div_le_div_right (by omega)
    have hdivle2 : (n + 1) / c ≤ n / c + 1 := by
      have h2 : (n + c) / c = n / c + 1 := Nat.add_div_right n hc
      have h3 : (n + 1) / c ≤ (n + c) / c := Nat.div_le_div_right (by omega)
      omega
    rw [countCong_succ, ih]
    rcases (by omega : (n + 1) / c = n / c ∨ (n + 1) / c = n / c + 1) with heq | heq
    · have hbr : c * ((n + 1) / c) = c * (n / c) := by rw [heq]
      rw [heq]
      split <;> split <;> split <;> omega
    · have hbr : c * ((n + 1) / c) = c * (n / c) + c := by
        rw [heq, Nat.mul_add, Nat.mul_one]
      rw [heq]
      split <;> split <;> split <;> omega

/-- The ring index of ticket n itself has been hit exactly n / c times by
tickets before n. -/
theorem countCong_self (c n : Nat) (hc : 0 < c) :
    countCong n c (n % c) = n / c := by
  rw [countCong_eq c (n % c) hc (Nat.mod_lt n hc) n]
  simp

theorem countCong_mono (c i : Nat) {t h : Nat} (hth : t ≤ h) :
    countCong t c i ≤ countCong h c i := by
  induction hth with
  | refl => exact Nat.le_refl _
  | step hle ih =>
    rw [countCong_succ]
    omega

/-- With t ≤ h ≤ t + c, the two laps differ by zero or one. -/
theorem div_cases_of_le {c h t : Nat} (hc : 0 < c) (h1 : t ≤ h) (h2 : h ≤ t + c) :
    h / c = t / c ∨ h / c = t / c + 1 := by
  have l1 : t / c ≤ h / c := Nat.div_le_div_right h1
  have l2 : h / c ≤ (t + c) / c := Nat.div_le_div_right h2
  have l3 : (t + c) / c = t / c + 1 := Nat.add_div_right t hc
  omega

/-- Fullness detector: the producer at head h finds the consumer count of
its slot caught up (equal to its lap) iff the queue is not full. -/
theorem countCong_tail_iff {c h t : Nat} (hc : 0 < c) (h1 : t ≤ h) (h2 : h ≤ t + c) :
    countCong t c (h % c) = h / c ↔ h - t < c := by
  have e1 : countCong t c (h % c) = t / c + (if h % c < t % c then 1 else 0) :=
    countCong_eq c (h % c) hc (Nat.mod_lt h hc) t
  have dh : c * (h / c) + h % c = h := Nat.div_add_mod h c
  have dt : c * (t / c) + t % c = t := Nat.div_add_mod t c
  have mh : h % c < c := Nat.mod_lt h hc
  have mt : t % c < c := Nat.mod_lt t hc
  rw [e1]
  rcases div_cases_of_le hc h1 h2 with hcs | hcs
  · rw [hcs] at dh ⊢
    split <;> omega
  · have hb : c * (h / c) = c * (t / c) + c := by
      rw [hcs, Nat.mul_add, Nat.mul_one]
    rw [hcs]
    split <;> omega

/-- Emptiness detector: the consumer at tail t finds the producer count of
its slot one ahead of its lap iff the queue is not empty. -/
theorem countCong_head_iff {c h t : Nat} (hc : 0 < c) (h1 : t ≤ h) (h2 : h ≤ t + c) :
    countCong h c (t % c) = t / c + 1 ↔ t < h := by
  have e1 : countCong h c (t % c) = h / c + (if t % c < h % c then 1 else 0) :=
    countCong_eq c (t % c) hc (Nat.mod_lt t hc) h
  have dh : c * (h / c) + h % c = h := Nat.div_add_mod h c
  have dt : c * (t / c) + t % c = t := Nat.div_add_mod t c
  have mh : h % c < c := Nat.mod_lt h hc
  have mt : t % c < c := Nat.mod_lt t hc
  rw [e1]
  rcases div_cases_of_le hc h1 h2 with hcs | hcs
  · rw [hcs] at dh ⊢
    split <;> omega
  · have hb : c * (h / c) = c * (t / c) + c := by
      rw [hcs, Nat.mul_add, Nat.mul_one]
    rw [hcs]
    split <;> omega

theorem getD_set_self {β : Type} (l : List β) (i : Nat) (hi : i < l.length) (a d : β) :
    (l.set i a).getD i d = a := by
  simp [List.getD_eq_getElem?_getD, List.getElem?_set_self hi]

theorem getD_set_ne {β : Type} (l : List β) {i j : Nat} (hij : i ≠ j) (a d : β) :
    (l.set i a).getD j d = l.getD j d := by
  simp [List.getD_eq_getElem?_getD, List.getElem?_set_ne hij]

theorem countP_set_lemma {β : Type} (p : β → Bool) (l : List β) :
    ∀ (i : Nat) (a d : β), i < l.length →
      (l.set i a).countP p + (if p (l.getD i d) then 1 else 0)
        = l.countP p + (if p a then 1 else 0) := by
  induction l with
  | nil => intro i a d hi; simp at hi
  | cons b l ih =>
    intro i a d hi
    cases i with
    | zero =>
      simp only [List.set_cons_zero, List.countP_cons, List.getD_cons_zero]
      omega
    | succ i =>
      have h2 := ih i a d (by simpa using hi)
      simp only [List.set_cons_succ, List.countP_cons, List.getD_cons_succ]
      omega

namespace MPMCQueue

theorem construct_with_turn (s : Slot α) (v : α) (T : Nat) :
    { s.construct v with turn := T } = ({ turn := T, storage := some v } : Slot α) :=
  rfl

theorem destroy_with_turn (s : Slot α) (T : Nat) :
    { s.destroy with turn := T } = ({ turn := T, storage := none } : Slot α) :=
  rfl

theorem idx_lt (q : MPMCQueue α) (hc : 0 < q.capacity) (k : Nat) :
    q.idx k < q.capacity :=
  Nat.mod_lt k hc

end MPMCQueue

/-- The reachable-state invariant: the capacity is positive, the ring has
exactly capacity slots, the tickets satisfy tail ≤ head ≤ tail + capacity,
each slot's turn counts the operations that completed on it (producer
tickets below head plus consumer tickets below tail landing on that
index), and a slot holds a constructed element exactly when its turn is
odd. -/
structure Inv (q : MPMCQueue α) : Prop where
  cap_pos : 0 < q.capacity
  len : q.slots.length = q.capacity
  tail_le : q.tail ≤ q.head
  head_le : q.head ≤ q.tail + q.capacity
  turn_eq : ∀ i, i < q.capacity →
    (q.slot i).turn = countCong q.head q.capacity i + countCong q.tail q.capacity i
  occ : ∀ i, i < q.capacity →
    ((q.slot i).storage.isSome ↔ (q.slot i).turn % 2 = 1)

/-- Under the invariant, the producer's spin condition at the current head
holds exactly when the queue is not full. -/
theorem Inv.emplace_cond_iff {q : MPMCQueue α} (hq : Inv q) :
    (q.slot (q.idx q.head)).turn = q.turn q.head * 2 ↔
      q.head - q.tail < q.capacity := by
  have hi : q.idx q.head < q.capacity := q.idx_lt hq.cap_pos q.head
  have ht := hq.turn_eq (q.idx q.head) hi
  have hself : countCong q.head q.capacity (q.head % q.capacity) =
      q.head / q.capacity := countCong_self q.capacity q.head hq.cap_pos
  have hiff := countCong_tail_iff hq.cap_pos hq.tail_le hq.head_le
  rw [ht]
  unfold MPMCQueue.idx at hself ⊢
  unfold MPMCQueue.turn
  rw [hself]
  omega

/-- Under the invariant, the consumer's spin condition at the current tail
holds exactly when the queue is not empty. -/
theorem Inv.pop_cond_iff {q : MPMCQueue α} (hq : Inv q) :
    (q.slot (q.idx q.tail)).turn = q.turn q.tail * 2 + 1 ↔
      q.tail < q.head := by
  have hi : q.idx q.tail < q.capacity := q.idx_lt hq.cap_pos q.tail
  have ht := hq.turn_eq (q.idx q.tail) hi
  have hself : countCong q.tail q.capacity (q.tail % q.capacity) =
      q.tail / q.capacity := countCong_self q.capacity q.tail hq.cap_pos
  have hiff := countCong_head_iff hq.cap_pos hq.tail_le hq.head_le
  rw [ht]
  unfold MPMCQueue.idx at hself ⊢
  unfold MPMCQueue.turn
  rw [hself]
  omega

/-- A successful emplace claims ticket head, flips the claimed slot from
turn 2L to 2L + 1 installing the element, leaves everything else alone,
and preserves the invariant. -/
theorem Inv.emplace_inv {q q' : MPMCQueue α} (hq : Inv q) {v : α}
    (h : q.emplace v = some q') :
    Inv q' ∧ q'.capacity = q.capacity ∧ q'.head = q.head + 1 ∧ q'.tail = q.tail ∧
      q'.slots = q.slots.set (q.idx q.head)
        { turn := q.turn q.head * 2 + 1, storage := some v } ∧
      (q.slot (q.idx q.head)).turn = q.turn q.head * 2 := by
  simp only [MPMCQueue.emplace] at h
  split at h
  case isFalse hcond => exact Option.noConfusion h
  case isTrue hcond =>
  simp only [Slot.construct] at h
  have hq' : q' = { q with head := q.head + 1
                           slots := q.slots.set (q.idx q.head)
                             { turn := q.turn q.head * 2 + 1, storage := some v } } :=
    (Option.some_inj.mp h).symm
  subst hq'
  have hi : q.idx q.head < q.capacity := q.idx_lt hq.cap_pos q.head
  have hil : q.idx q.head < q.slots.length := by rw [hq.len]; exact hi
  have hturn := hq.turn_eq (q.idx q.head) hi
  have hfull : q.head - q.tail < q.capacity := hq.emplace_cond_iff.mp hcond
  refine ⟨⟨hq.cap_pos, ?_, ?_, ?_, ?_, ?_⟩, rfl, rfl, rfl, rfl, hcond⟩
  · simpa [List.length_set] using hq.len
  · have := hq.tail_le; simp; omega
  · simp; omega
  · intro j hj
    simp only [MPMCQueue.slot] at *
    by_cases hji : q.idx q.head = j
    · subst hji
      rw [getD_set_self _ _ hil, countCong_succ]
      simp only [MPMCQueue.idx] at hturn hcond ⊢
      rw [if_pos trivial]
      show q.turn q.head * 2 + 1 = _
      unfold MPMCQueue.turn at hcond ⊢
      have hself : countCong q.head q.capacity (q.head % q.capacity) =
          q.head / q.capacity := countCong_self q.capacity q.head hq.cap_pos
      omega
    · rw [getD_set_ne _ hji, countCong_succ,
          if_neg (by unfold MPMCQueue.idx at hji; exact hji)]
      have := hq.turn_eq j hj
      simp only [MPMCQueue.slot] at this
      omega
  · intro j hj
    simp only [MPMCQueue.slot] at *
    by_cases hji : q.idx q.head = j
    · subst hji
      rw [getD_set_self _ _ hil]
      simp
      omega
    · rw [getD_set_ne _ hji]
      have := hq.occ j hj
      simp only [MPMCQueue.slot] at this
      exact this

/-- A successful pop claims ticket tail, reads the element stored in the
claimed slot, flips its turn from 2L + 1 to 2L + 2 destroying the
element, leaves everything else alone, and preserves the invariant. -/
theorem Inv.pop_inv {q q' : MPMCQueue α} (hq : Inv q) {w : α}
    (h : q.pop = some (w, q')) :
    Inv q' ∧ q'.capacity = q.capacity ∧ q'.head = q.head ∧ q'.tail = q.tail + 1 ∧
      q'.slots = q.slots.set (q.idx q.tail)
        { turn := q.turn q.tail * 2 + 2, storage := none } ∧
      (q.slot (q.idx q.tail)).turn = q.turn q.tail * 2 + 1 ∧
      (q.slot (q.idx q.tail)).storage = some w := by
  simp only [MPMCQueue.pop] at h
  split at h
  case isFalse hcond => exact Option.noConfusion h
  case isTrue hcond =>
  have hi : q.idx q.tail < q.capacity := q.idx_lt hq.cap_pos q.tail
  have hil : q.idx q.tail < q.slots.length := by rw [hq.len]; exact hi
  have hsome : ((q.slot (q.idx q.tail)).storage).isSome := by
    refine (hq.occ (q.idx q.tail) hi).mpr ?_
    rw [hcond]
    omega
  obtain ⟨u, hu⟩ := Option.isSome_iff_exists.mp hsome
  simp only [Slot.move] at h
  rw [hu] at h
  simp only [Option.map_some', Option.some_inj, Prod.mk.injEq, Slot.destroy] at h
  obtain ⟨huw, hq'⟩ := h
  subst huw
  have hq'' : q' = { q with tail := q.tail + 1
                            slots := q.slots.set (q.idx q.tail)
                              { turn := q.turn q.tail * 2 + 2, storage := none } } :=
    hq'.symm
  subst hq''
  have hturn := hq.turn_eq (q.idx q.tail) hi
  have hne : q.tail < q.head := hq.pop_cond_iff.mp hcond
  refine ⟨⟨hq.cap_pos, ?_, ?_, ?_, ?_, ?_⟩, rfl, rfl, rfl, rfl, hcond, hu⟩
  · simpa [List.length_set] using hq.len
  · simp; omega
  · have := hq.head_le; simp; omega
  · intro j hj
    simp only [MPMCQueue.slot] at *
    by_cases hji : q.idx q.tail = j
    · subst hji
      rw [getD_set_self _ _ hil, countCong_succ]
      simp only [MPMCQueue.idx] at hturn hcond ⊢
      rw [if_pos trivial]
      show q.turn q.tail * 2 + 2 = _
      unfold MPMCQueue.turn at hcond ⊢
      have hself : countCong q.tail q.capacity (q.tail % q.capacity) =
          q.tail / q.capacity := countCong_self q.capacity q.tail hq.cap_pos
      omega
    · rw [getD_set_ne _ hji, countCong_succ,
          if_neg (by unfold MPMCQueue.idx at hji; exact hji)]
      have := hq.turn_eq j hj
      simp only [MPMCQueue.slot] at this
      omega
  · intro j hj
    simp only [MPMCQueue.slot] at *
    by_cases hji : q.idx q.tail = j
    · subst hji
      rw [getD_set_self _ _ hil]
      simp
    · rw [getD_set_ne _ hji]
      have := hq.occ j hj
      simp only [MPMCQueue.slot] at this
      exact this

/-- A successful emplace increases the number of full (odd-turn) slots by
exactly one. -/
theorem countOdd_emplace {q q' : MPMCQueue α} (hq : Inv q) {v : α}
    (h : q.emplace v = some q') :
    q'.countOdd = q.countOdd + 1 := by
  obtain ⟨hinv, hc, hh, ht, hs, hcond⟩ := hq.emplace_inv h
  unfold MPMCQueue.countOdd
  rw [hs]
  have hil : q.idx q.head < q.slots.length := by
    rw [hq.len]; exact q.idx_lt hq.cap_pos q.head
  have key := countP_set_lemma (fun s => s.turn % 2 == 1) q.slots (q.idx q.head)
      { turn := q.turn q.head * 2 + 1, storage := some v }
      { turn := 0, storage := none } hil
  simp only [MPMCQueue.slot] at hcond
  simp only at key
  simp only [hcond] at key
  have h0 : q.turn q.head * 2 % 2 = 0 := Nat.mul_mod_left _ 2
  have h1 : (q.turn q.head * 2 + 1) % 2 = 1 := by omega
  simp only [h0, h1] at key
  simp at key
  omega

/-- A successful pop decreases the number of full (odd-turn) slots by
exactly one. -/
theorem countOdd_pop {q q' : MPMCQueue α} (hq : Inv q) {w : α}
    (h : q.pop = some (w, q')) :
    q.countOdd = q'.countOdd + 1 := by
  obtain ⟨hinv, hc, hh, ht, hs, hcond, hsto⟩ := hq.pop_inv h
  unfold MPMCQueue.countOdd
  rw [hs]
  have hil : q.idx q.tail < q.slots.length := by
    rw [hq.len]; exact q.idx_lt hq.cap_pos q.tail
  have key := countP_set_lemma (fun s => s.turn % 2 == 1) q.slots (q.idx q.tail)
      { turn := q.turn q.tail * 2 + 2, storage := none }
      { turn := 0, storage := none } hil
  simp only [MPMCQueue.slot] at hcond
  simp only at key
  simp only [hcond] at key
  have h0 : (q.turn q.tail * 2 + 2) % 2 = 0 := by omega
  have h1 : (q.turn q.tail * 2 + 1) % 2 = 1 := by omega
  simp only [h0, h1] at key
  simp at key
  omega

/-- Sequential agreement of try_emplace with emplace: same test, same
success state; on failure the state is handed back unchanged. -/
theorem try_emplace_eq (q : MPMCQueue α) (v : α) :
    q.try_emplace v = match q.emplace v with
      | some q' => (true, q')
      | none => (false, q) := by
  simp only [MPMCQueue.try_emplace, MPMCQueue.emplace]
  by_cases hcond : (q.slot (q.idx q.head)).turn = q.turn q.head * 2
  · rw [if_pos hcond, if_pos hcond]
  · rw [if_neg hcond, if_neg hcond]

/-- Sequential agreement of try_pop with pop, given that the claimed slot
holds a constructed element whenever its turn admits a consumer. -/
theorem try_pop_eq (q : MPMCQueue α) (v0 : α)
    (hocc : (q.slot (q.idx q.tail)).turn = q.turn q.tail * 2 + 1 →
      ((q.slot (q.idx q.tail)).storage).isSome) :
    q.try_pop v0 = match q.pop with
      | some (w, q') => (true, w, q')
      | none => (false, v0, q) := by
  simp only [MPMCQueue.try_pop, MPMCQueue.pop]
  by_cases hcond : (q.slot (q.idx q.tail)).turn = q.turn q.tail * 2 + 1
  · obtain ⟨w, hw⟩ := Option.isSome_iff_exists.mp (hocc hcond)
    rw [if_pos hcond, if_pos hcond]
    simp only [Slot.move, hw, Option.map_some']
  · rw [if_neg hcond, if_neg hcond]

theorem Inv.try_pop_hocc {q : MPMCQueue α} (hq : Inv q) :
    (q.slot (q.idx q.tail)).turn = q.turn q.tail * 2 + 1 →
      ((q.slot (q.idx q.tail)).storage).isSome := fun hcond =>
  (hq.occ _ (q.idx_lt hq.cap_pos q.tail)).mpr (by rw [hcond]; omega)

theorem try_emplace_true_emplace {q q' : MPMCQueue α} {v : α}
    (h : q.try_emplace v = (true, q')) : q.emplace v = some q' := by
  have he := try_emplace_eq q v
  rw [h] at he
  cases hp : q.emplace v with
  | some q'' =>
    rw [hp] at he
    simp only [Prod.mk.injEq] at he
    rw [he.2]
  | none =>
    rw [hp] at he
    simp at he

theorem try_emplace_false_state {q q' : MPMCQueue α} {v : α}
    (h : q.try_emplace v = (false, q')) : q' = q := by
  simp only [MPMCQueue.try_emplace] at h
  split at h
  · simp at h
  · simp only [Prod.mk.injEq] at h
    exact h.2.symm

theorem Inv.try_pop_true_pop {q q' : MPMCQueue α} {v0 w : α} (hq : Inv q)
    (h : q.try_pop v0 = (true, w, q')) : q.pop = some (w, q') := by
  have he := try_pop_eq q v0 hq.try_pop_hocc
  rw [h] at he
  cases hp : q.pop with
  | some p =>
    obtain ⟨w', q''⟩ := p
    rw [hp] at he
    simp only [Prod.mk.injEq] at he
    rw [he.2.1, he.2.2]
  | none =>
    rw [hp] at he
    simp at he

theorem try_pop_false_state {q q' : MPMCQueue α} {v0 w : α}
    (h : q.try_pop v0 = (false, w, q')) : q' = q ∧ w = v0 := by
  simp only [MPMCQueue.try_pop] at h
  split at h
  · split at h <;> simp at h
  · simp only [Prod.mk.injEq] at h
    exact ⟨h.2.2.symm, h.2.1.symm⟩

/-- States reachable from a freshly constructed queue by any sequence of
operations, with the number ne of successful enqueues (emplace, or
try_emplace returning true; push and try_push forward to these) and the
number nd of successful dequeues performed so far. -/
inductive Reach (α : Type) : MPMCQueue α → Nat → Nat → Prop where
  | init (c : Nat) (q : MPMCQueue α) (h : MPMCQueue.mkQueue α c = .ok q) :
      Reach α q 0 0
  | emplace {q q' : MPMCQueue α} {ne nd : Nat} (v : α) (hr : Reach α q ne nd)
      (h : q.emplace v = some q') : Reach α q' (ne + 1) nd
  | try_emplace_true {q q' : MPMCQueue α} {ne nd : Nat} (v : α)
      (hr : Reach α q ne nd) (h : q.try_emplace v = (true, q')) :
      Reach α q' (ne + 1) nd
  | try_emplace_false {q q' : MPMCQueue α} {ne nd : Nat} (v : α)
      (hr : Reach α q ne nd) (h : q.try_emplace v = (false, q')) :
      Reach α q' ne nd
  | pop {q q' : MPMCQueue α} {ne nd : Nat} {w : α} (hr : Reach α q ne nd)
      (h : q.pop = some (w, q')) : Reach α q' ne (nd + 1)
  | try_pop_true {q q' : MPMCQueue α} {ne nd : Nat} (v0 : α) {w : α}
      (hr : Reach α q ne nd) (h : q.try_pop v0 = (true, w, q')) :
      Reach α q' ne (nd + 1)
  | try_pop_false {q q' : MPMCQueue α} {ne nd : Nat} (v0 w : α)
      (hr : Reach α q ne nd) (h : q.try_pop v0 = (false, w, q')) :
      Reach α q' ne nd

theorem getD_replicate_lemma {β : Type} (c i : Nat) (hi : i < c) (b d : β) :
    (List.replicate c b).getD i d = b := by
  rw [List.getD_eq_getElem?_getD, List.getElem?_replicate, if_pos hi]
  rfl

theorem countP_replicate_zero {β : Type} (p : β → Bool) (b : β) (hp : p b = false) :
    ∀ c : Nat, (List.replicate c b).countP p = 0 := by
  intro c
  induction c with
  | zero => rfl
  | succ c ih =>
    rw [List.replicate_succ, List.countP_cons, hp]
    simpa using ih

/-- Master induction: every reachable state satisfies the invariant, its
head counts the successful enqueues, its tail the successful dequeues, and
the number of full slots is their difference. -/
theorem reach_master {q : MPMCQueue α} {ne nd : Nat} (hr : Reach α q ne nd) :
    Inv q ∧ q.head = ne ∧ q.tail = nd ∧ q.countOdd = ne - nd := by
  induction hr with
  | init c q h =>
    simp only [MPMCQueue.mkQueue] at h
    split at h
    · exact Except.noConfusion h
    case isFalse hc =>
    have hq : q = { capacity := c
                    slots := List.replicate c { turn := 0, storage := none }
                    head := 0
                    tail := 0 } := by
      cases h
      rfl
    subst hq
    refine ⟨⟨by show 0 < c; omega, by simp, Nat.le_refl 0, Nat.zero_le _, ?_, ?_⟩,
      rfl, rfl, ?_⟩
    · intro i hi
      simp only [MPMCQueue.slot] at *
      rw [getD_replicate_lemma c i hi]
      rfl
    · intro i hi
      simp only [MPMCQueue.slot] at *
      rw [getD_replicate_lemma c i hi]
      simp
    · exact countP_replicate_zero _ _ rfl c
  | emplace v hr h ih =>
    obtain ⟨hinv, hh, ht, hco⟩ := ih
    obtain ⟨hinv', hc', hh', ht', _, _⟩ := hinv.emplace_inv h
    have hcnt := countOdd_emplace hinv h
    have := hinv.tail_le
    exact ⟨hinv', by omega, by omega, by omega⟩
  | try_emplace_true v hr h ih =>
    obtain ⟨hinv, hh, ht, hco⟩ := ih
    have h2 := try_emplace_true_emplace h
    obtain ⟨hinv', hc', hh', ht', _, _⟩ := hinv.emplace_inv h2
    have hcnt := countOdd_emplace hinv h2
    have := hinv.tail_le
    exact ⟨hinv', by omega, by omega, by omega⟩
  | try_emplace_false v hr h ih =>
    obtain ⟨hinv, hh, ht, hco⟩ := ih
    have h2 := try_emplace_false_state h
    subst h2
    exact ⟨hinv, hh, ht, hco⟩
  | pop hr h ih =>
    obtain ⟨hinv, hh, ht, hco⟩ := ih
    obtain ⟨hinv', hc', hh', ht', _, hcond, _⟩ := hinv.pop_inv h
    have hcnt := countOdd_pop hinv h
    have hne := hinv.pop_cond_iff.mp hcond
    exact ⟨hinv', by omega, by omega, by omega⟩
  | try_pop_true v0 hr h ih =>
    obtain ⟨hinv, hh, ht, hco⟩ := ih
    have h2 := hinv.try_pop_true_pop h
    obtain ⟨hinv', hc', hh', ht', _, hcond, _⟩ := hinv.pop_inv h2
    have hcnt := countOdd_pop hinv h2
    have hne := hinv.pop_cond_iff.mp hcond
    exact ⟨hinv', by omega, by omega, by omega⟩
  | try_pop_false v0 w hr h ih =>
    obtain ⟨hinv, hh, ht, hco⟩ := ih
    obtain ⟨h2, _⟩ := try_pop_false_state h
    subst h2
    exact ⟨hinv, hh, ht, hco⟩

/-- A step of a single-producer single-consumer schedule. -/
inductive SPSCStep where
  | enq
  | deq
deriving DecidableEq

/-- Run a single-producer single-consumer execution: the producer enqueues
the elements of vs in order (its k-th enqueue, claiming ticket k, pushes
vs[k]); the consumer pops, appending each received element to outs.
Returns none when a step would block or the producer runs out of input. -/
def runSPSC (vs : List α) : List SPSCStep → MPMCQueue α → List α →
    Option (MPMCQueue α × List α)
  | [], q, outs => some (q, outs)
  | SPSCStep.enq :: rest, q, outs =>
    match vs[q.head]? with
    | some v =>
      match q.emplace v with
      | some q' => runSPSC vs rest q' outs
      | none => none
    | none => none
  | SPSCStep.deq :: rest, q, outs =>
    match q.pop with
    | some (w, q') => runSPSC vs rest q' (outs ++ [w])
    | none => none

/-- Invariant of a single-producer run: the outputs so far are exactly the
first tail elements of the input, and every full slot holds the input
element whose ticket is the slot's pending consumer ticket. -/
structure SPSCInv (vs : List α) (q : MPMCQueue α) (outs : List α) : Prop where
  inv : Inv q
  outs_eq : outs = vs.take q.tail
  contents : ∀ i, i < q.capacity → (q.slot i).turn % 2 = 1 →
    (q.slot i).storage = vs[q.capacity * countCong q.tail q.capacity i + i]?

theorem SPSCInv.enq_step {vs : List α} {q q' : MPMCQueue α} {outs : List α}
    (hs : SPSCInv vs q outs) {v : α} (hv : vs[q.head]? = some v)
    (h : q.emplace v = some q') : SPSCInv vs q' outs := by
  obtain ⟨hinv', hc', hh', ht', hsl', hcond⟩ := hs.inv.emplace_inv h
  have hi : q.idx q.head < q.capacity := q.idx_lt hs.inv.cap_pos q.head
  have hil : q.idx q.head < q.slots.length := by rw [hs.inv.len]; exact hi
  have hturn := hs.inv.turn_eq (q.idx q.head) hi
  have hself : countCong q.head q.capacity (q.head % q.capacity) =
      q.head / q.capacity := countCong_self q.capacity q.head hs.inv.cap_pos
  have htcnt : countCong q.tail q.capacity (q.idx q.head) = q.head / q.capacity := by
    simp only [MPMCQueue.idx] at *
    unfold MPMCQueue.turn at hcond
    omega
  refine ⟨hinv', ?_, ?_⟩
  · rw [ht']
    exact hs.outs_eq
  · intro j hj hodd
    rw [hc'] at hj
    have hdm : q.capacity * (q.head / q.capacity) + q.head % q.capacity = q.head :=
      Nat.div_add_mod q.head q.capacity
    by_cases hji : q.idx q.head = j
    · subst hji
      have hslot : q'.slot (q.idx q.head) =
          { turn := q.turn q.head * 2 + 1, storage := some v } := by
        simp only [MPMCQueue.slot, hsl']
        exact getD_set_self _ _ hil _ _
      rw [hslot, ht', hc', htcnt]
      simp only [MPMCQueue.idx] at *
      rw [hdm, hv]
    · have hslot : q'.slot j = q.slot j := by
        simp only [MPMCQueue.slot, hsl']
        exact getD_set_ne _ hji _ _
      have hodd' : (q.slot j).turn % 2 = 1 := by rwa [hslot] at hodd
      rw [hslot, ht', hc']
      exact hs.contents j hj hodd'

theorem SPSCInv.pop_value {vs : List α} {q : MPMCQueue α} {outs : List α}
    (hs : SPSCInv vs q outs) {w : α} {q' : MPMCQueue α}
    (h : q.pop = some (w, q')) : vs[q.tail]? = some w := by
  obtain ⟨hinv', hc', hh', ht', hsl', hcond, hsto⟩ := hs.inv.pop_inv h
  have hi : q.idx q.tail < q.capacity := q.idx_lt hs.inv.cap_pos q.tail
  have hodd : (q.slot (q.idx q.tail)).turn % 2 = 1 := by
    rw [hcond]; omega
  have hcontents := hs.contents (q.idx q.tail) hi hodd
  have hself : countCong q.tail q.capacity (q.tail % q.capacity) =
      q.tail / q.capacity := countCong_self q.capacity q.tail hs.inv.cap_pos
  have hdm : q.capacity * (q.tail / q.capacity) + q.tail % q.capacity = q.tail :=
    Nat.div_add_mod q.tail q.capacity
  rw [hsto] at hcontents
  simp only [MPMCQueue.idx] at hcontents
  rw [hself, hdm] at hcontents
  exact hcontents.symm

theorem SPSCInv.deq_step {vs : List α} {q q' : MPMCQueue α} {outs : List α}
    (hs : SPSCInv vs q outs) {w : α}
    (h : q.pop = some (w, q')) : SPSCInv vs q' (outs ++ [w]) := by
  have hw := hs.pop_value h
  obtain ⟨hinv', hc', hh', ht', hsl', hcond, hsto⟩ := hs.inv.pop_inv h
  have hi : q.idx q.tail < q.capacity := q.idx_lt hs.inv.cap_pos q.tail
  have hil : q.idx q.tail < q.slots.length := by rw [hs.inv.len]; exact hi
  refine ⟨hinv', ?_, ?_⟩
  · rw [ht', List.take_succ, ← hs.outs_eq, hw]
    rfl
  · intro j hj hodd
    rw [hc'] at hj
    by_cases hji : q.idx q.tail = j
    · subst hji
      have hslot : q'.slot (q.idx q.tail) =
          { turn := q.turn q.tail * 2 + 2, storage := none } := by
        simp only [MPMCQueue.slot, hsl']
        exact getD_set_self _ _ hil _ _
      rw [hslot] at hodd
      simp at hodd
    · have hslot : q'.slot j = q.slot j := by
        simp only [MPMCQueue.slot, hsl']
        exact getD_set_ne _ hji _ _
      have hcnt : countCong q'.tail q.capacity j = countCong q.tail q.capacity j := by
        rw [ht', countCong_succ,
            if_neg (by unfold MPMCQueue.idx at hji; exact hji)]
        omega
      have hodd' : (q.slot j).turn % 2 = 1 := by rwa [hslot] at hodd
      rw [hslot, hc', hcnt]
      exact hs.contents j hj hodd'

/-- Running any SPSC schedule from a state satisfying the SPSC invariant
lands in a state satisfying it. -/
theorem runSPSC_preserves (vs : List α) :
    ∀ (sched : List SPSCStep) (q : MPMCQueue α) (outs : List α),
      SPSCInv vs q outs → ∀ {qf : MPMCQueue α} {outsf : List α},
      runSPSC vs sched q outs = some (qf, outsf) → SPSCInv vs qf outsf := by
  intro sched
  induction sched with
  | nil =>
    intro q outs hs qf outsf h
    simp only [runSPSC, Option.some_inj, Prod.mk.injEq] at h
    rw [← h.1, ← h.2]
    exact hs
  | cons step rest ih =>
    intro q outs hs qf outsf h
    cases step with
    | enq =>
      simp only [runSPSC] at h
      split at h
      · rename_i v hv
        split at h
        · rename_i q' he
          exact ih q' outs (hs.enq_step hv he) h
        · exact Option.noConfusion h
      · exact Option.noConfusion h
    | deq =>
      simp only [runSPSC] at h
      split at h
      · rename_i w q' hp
        exact ih q' (outs ++ [w]) (hs.deq_step hp) h
      · exact Option.noConfusion h

/-- A freshly constructed queue satisfies the SPSC invariant with no
outputs. -/
theorem SPSCInv.init {c : Nat} {q0 : MPMCQueue α}
    (h0 : MPMCQueue.mkQueue α c = .ok q0) (vs : List α) : SPSCInv vs q0 [] := by
  have hm := reach_master (Reach.init c q0 h0)
  refine ⟨hm.1, ?_, ?_⟩
  · rw [hm.2.2.1]
    rfl
  · intro i hi hodd
    have := hm.1.turn_eq i hi
    rw [hm.2.1, hm.2.2.1] at this
    simp only [countCong] at this
    omega

/-- try_emplace reports failure exactly when the producer turn test on the
slot at the current head fails. -/
theorem try_emplace_flag (q : MPMCQueue α) (v : α) :
    (q.try_emplace v).1 = false ↔
      ¬ (q.slot (q.idx q.head)).turn = q.turn q.head * 2 := by
  simp only [MPMCQueue.try_emplace]
  split <;> simp [*]

/-- try_pop reports failure exactly when the consumer turn test on the
slot at the current tail fails. -/
theorem try_pop_flag (q : MPMCQueue α) (v0 : α) :
    (q.try_pop v0).1 = false ↔
      ¬ (q.slot (q.idx q.tail)).turn = q.turn q.tail * 2 + 1 := by
  simp only [MPMCQueue.try_pop]
  split
  · split <;> simp [*]
  · simp [*]

/-- A failed try_emplace leaves the queue state untouched. -/
theorem try_emplace_failed_frame (q : MPMCQueue α) (v : α)
    (h : (q.try_emplace v).1 = false) : (q.try_emplace v).2 = q := by
  simp only [MPMCQueue.try_emplace] at h ⊢
  split at h
  · simp at h
  · rename_i hcond
    rw [if_neg hcond]

/-- A failed try_pop leaves both the out-parameter and the queue state
untouched. -/
theorem try_pop_failed_frame (q : MPMCQueue α) (v0 : α)
    (h : (q.try_pop v0).1 = false) :
    (q.try_pop v0).2.1 = v0 ∧ (q.try_pop v0).2.2 = q := by
  simp only [MPMCQueue.try_pop] at h ⊢
  split at h
  · split at h <;> simp at h
  · rename_i hcond
    rw [if_neg hcond]
    exact ⟨rfl, rfl⟩

/-- Effect of a successful emplace on the slot turns: the claimed slot
goes from 2L to 2L + 1, all other slots are untouched. -/
theorem emplace_effect {q q' : MPMCQueue α} (hq : Inv q) {v : α}
    (h : q.emplace v = some q') :
    (q.slot (q.idx q.head)).turn = q.turn q.head * 2 ∧
    (q'.slot (q.idx q.head)).turn = q.turn q.head * 2 + 1 ∧
    (q'.slot (q.idx q.head)).storage = some v ∧
    ∀ j, j ≠ q.idx q.head → q'.slot j = q.slot j := by
  obtain ⟨-, -, -, -, hsl', hcond⟩ := hq.emplace_inv h
  have hil : q.idx q.head < q.slots.length := by
    rw [hq.len]; exact q.idx_lt hq.cap_pos q.head
  have hslot : q'.slot (q.idx q.head) =
      { turn := q.turn q.head * 2 + 1, storage := some v } := by
    simp only [MPMCQueue.slot, hsl']
    exact getD_set_self _ _ hil _ _
  refine ⟨hcond, by rw [hslot], by rw [hslot], ?_⟩
  intro j hj
  simp only [MPMCQueue.slot, hsl']
  exact getD_set_ne _ (fun he => hj he.symm) _ _

/-- Effect of a successful pop on the slot turns: the claimed slot goes
from 2L + 1 to 2L + 2 and its element is the one returned; all other
slots are untouched. -/
theorem pop_effect {q q' : MPMCQueue α} (hq : Inv q) {w : α}
    (h : q.pop = some (w, q')) :
    (q.slot (q.idx q.tail)).turn = q.turn q.tail * 2 + 1 ∧
    (q'.slot (q.idx q.tail)).turn = q.turn q.tail * 2 + 2 ∧
    (q.slot (q.idx q.tail)).storage = some w ∧
    (q'.slot (q.idx q.tail)).storage = none ∧
    ∀ j, j ≠ q.idx q.tail → q'.slot j = q.slot j := by
  obtain ⟨-, -, -, -, hsl', hcond, hsto⟩ := hq.pop_inv h
  have hil : q.idx q.tail < q.slots.length := by
    rw [hq.len]; exact q.idx_lt hq.cap_pos q.tail
  have hslot : q'.slot (q.idx q.tail) =
      { turn := q.turn q.tail * 2 + 2, storage := none } := by
    simp only [MPMCQueue.slot, hsl']
    exact getD_set_self _ _ hil _ _
  refine ⟨hcond, by rw [hslot], hsto, by rw [hslot], ?_⟩
  intro j hj
  simp only [MPMCQueue.slot, hsl']
  exact getD_set_ne _ (fun he => hj he.symm) _ _

/-- In an invariant state that is not full, emplace succeeds. -/
theorem Inv.emplace_total {q : MPMCQueue α} (hq : Inv q) (v : α)
    (hnf : q.head - q.tail < q.capacity) : ∃ q', q.emplace v = some q' := by
  have hcond := hq.emplace_cond_iff.mpr hnf
  refine ⟨{ q with head := q.head + 1,
                   slots := q.slots.set (q.idx q.head)
                     { turn := q.turn q.head * 2 + 1, storage := some v } }, ?_⟩
  simp only [MPMCQueue.emplace]
  rw [if_pos hcond]
  rfl

/-- In an invariant state that is not empty, pop succeeds. -/
theorem Inv.pop_total {q : MPMCQueue α} (hq : Inv q)
    (hne : q.tail < q.head) : ∃ w q', q.pop = some (w, q') := by
  have hcond := hq.pop_cond_iff.mpr hne
  obtain ⟨w, hw⟩ := Option.isSome_iff_exists.mp (hq.try_pop_hocc hcond)
  refine ⟨w, { q with tail := q.tail + 1,
                      slots := q.slots.set (q.idx q.tail)
                        { turn := q.turn q.tail * 2 + 2, storage := none } }, ?_⟩
  simp only [MPMCQueue.pop]
  rw [if_pos hcond]
  simp only [Slot.move, hw, Option.map_some']
  rfl

/-- The queue destructor's total destroy count equals the number of
odd-turn slots: each full slot is destroyed exactly once, empty slots
never. -/
theorem sum_dtorCalls_eq_countP (l : List (Slot α)) :
    (l.map Slot.dtorCalls).sum = l.countP fun s => s.turn % 2 == 1 := by
  induction l with
  | nil => rfl
  | cons s l ih =>
    rw [List.map_cons, List.sum_cons, List.countP_cons, ih]
    unfold Slot.dtorCalls
    by_cases hp : s.turn % 2 = 1
    · rw [if_pos hp, if_pos (by simp [hp])]
      omega
    · rw [if_neg hp, if_neg (by simp [hp])]
      omega

theorem dtorTotal_eq_countOdd (q : MPMCQueue α) : q.dtorTotal = q.countOdd :=
  sum_dtorCalls_eq_countP q.slots

/-- Concrete fixture: a freshly constructed capacity-1 queue. -/
def q1e : MPMCQueue Nat :=
  { capacity := 1, slots := [{ turn := 0, storage := none }], head := 0, tail := 0 }

/-- Concrete fixture: the full capacity-1 queue after enqueuing 5. -/
def q1f : MPMCQueue Nat :=
  { capacity := 1, slots := [{ turn := 1, storage := some 5 }], head := 1, tail := 0 }

theorem reach_q1e : Reach Nat q1e 0 0 :=
  Reach.init 1 q1e rfl

theorem reach_q1f : Reach Nat q1f 1 0 :=
  Reach.emplace 5 reach_q1e (by decide)

/-- Concrete fixture: a freshly constructed capacity-2 queue. -/
def q2e : MPMCQueue Nat :=
  { capacity := 2, slots := [{ turn := 0, storage := none }, { turn := 0, storage := none }],
    head := 0, tail := 0 }

/-- Concrete fixture: the capacity-2 queue after two enqueues and two
dequeues. -/
def q2d : MPMCQueue Nat :=
  { capacity := 2, slots := [{ turn := 2, storage := none }, { turn := 2, storage := none }],
    head := 2, tail := 2 }

example : (q1e.try_push 1).1 = true := by decide
example : (((q1e.try_push 1).2).try_push 2).1 = false := by decide
example : ((q1e.try_push 1).2).try_pop 0 =
    (true, 1, { capacity := 1, slots := [{ turn := 2, storage := none }],
                head := 1, tail := 1 }) := by decide
example : (q1e.try_pop 7).1 = false ∧ (q1e.try_pop 7).2.1 = 7 := by decide

/-- Claim C1: with a single producer enqueuing v0, v1, ... in ticket order
(via emplace/push) and a single consumer dequeuing via pop, every
completed execution delivers to the consumer exactly the enqueued prefix
in order: the outputs are the first tail elements of the input, and the
dequeue that claims ticket k yields the element enqueued at ticket k. -/
theorem C1_spsc_fifo {α : Type} (c : Nat) (vs : List α) (sched : List SPSCStep)
    (q0 qf : MPMCQueue α) (outs : List α)
    (h0 : MPMCQueue.mkQueue α c = .ok q0)
    (hrun : runSPSC vs sched q0 [] = some (qf, outs)) :
    outs = vs.take qf.tail ∧ ∀ k, k < qf.tail → outs[k]? = vs[k]? := by
  have hs := runSPSC_preserves vs sched q0 [] (SPSCInv.init h0 vs) hrun
  refine ⟨hs.outs_eq, ?_⟩
  intro k hk
  rw [hs.outs_eq]
  exact List.getElem?_take_of_lt hk

theorem C1_spsc_fifo_witness :
    ([10, 20] : List Nat) = ([10, 20] : List Nat).take q2d.tail ∧
      ∀ k, k < q2d.tail → ([10, 20] : List Nat)[k]? = ([10, 20] : List Nat)[k]? :=
  C1_spsc_fifo 2 [10, 20] [SPSCStep.enq, SPSCStep.enq, SPSCStep.deq, SPSCStep.deq]
    q2e q2d [10, 20] rfl (by decide)

/-- Claim C2: in every reachable state, try_emplace (hence try_push)
returns false iff the queue is full at the examined ticket
(head - tail = capacity), and try_pop returns false iff the queue is
empty (head = tail); there are no spurious failures. -/
theorem C2_try_failure_iff {α : Type} {q : MPMCQueue α} {ne nd : Nat}
    (hr : Reach α q ne nd) (v v0 : α) :
    ((q.try_emplace v).1 = false ↔ q.head - q.tail = q.capacity) ∧
    ((q.try_pop v0).1 = false ↔ q.head = q.tail) := by
  obtain ⟨hinv, -, -, -⟩ := reach_master hr
  have h1 := hinv.tail_le
  have h2 := hinv.head_le
  constructor
  · rw [try_emplace_flag, hinv.emplace_cond_iff]
    omega
  · rw [try_pop_flag, hinv.pop_cond_iff]
    omega

theorem C2_try_failure_iff_witness :
    (((q1f.try_emplace 7).1 = false ↔ q1f.head - q1f.tail = q1f.capacity) ∧
      ((q1f.try_pop 0).1 = false ↔ q1f.head = q1f.tail)) :=
  C2_try_failure_iff reach_q1f 7 0

/-- Claim C3: the per-slot turn protocol. A producer operation on ticket k
(lap L) completes only when the claimed slot's turn equals 2L, constructs
the element there and stores turn 2L + 1; a consumer operation completes
only when the slot's turn equals 2L + 1, takes the element out, destroys
it and stores 2L + 2; in either case every other slot is untouched, so
each slot's turn increases by exactly 1 per successful operation. -/
theorem C3_turn_protocol {α : Type} {q : MPMCQueue α} {ne nd : Nat}
    (hr : Reach α q ne nd) :
    (∀ (v : α) (q' : MPMCQueue α), q.emplace v = some q' →
      (q.slot (q.idx q.head)).turn = q.turn q.head * 2 ∧
      (q'.slot (q.idx q.head)).turn = q.turn q.head * 2 + 1 ∧
      (q'.slot (q.idx q.head)).storage = some v ∧
      ∀ j, j ≠ q.idx q.head → q'.slot j = q.slot j) ∧
    (∀ (v : α) (q' : MPMCQueue α), q.try_emplace v = (true, q') →
      (q.slot (q.idx q.head)).turn = q.turn q.head * 2 ∧
      (q'.slot (q.idx q.head)).turn = q.turn q.head * 2 + 1 ∧
      (q'.slot (q.idx q.head)).storage = some v ∧
      ∀ j, j ≠ q.idx q.head → q'.slot j = q.slot j) ∧
    (∀ (w : α) (q' : MPMCQueue α), q.pop = some (w, q') →
      (q.slot (q.idx q.tail)).turn = q.turn q.tail * 2 + 1 ∧
      (q'.slot (q.idx q.tail)).turn = q.turn q.tail * 2 + 2 ∧
      (q.slot (q.idx q.tail)).storage = some w ∧
      (q'.slot (q.idx q.tail)).storage = none ∧
      ∀ j, j ≠ q.idx q.tail → q'.slot j = q.slot j) ∧
    (∀ (v0 w : α) (q' : MPMCQueue α), q.try_pop v0 = (true, w, q') →
      (q.slot (q.idx q.tail)).turn = q.turn q.tail * 2 + 1 ∧
      (q'.slot (q.idx q.tail)).turn = q.turn q.tail * 2 + 2 ∧
      (q.slot (q.idx q.tail)).storage = some w ∧
      (q'.slot (q.idx q.tail)).storage = none ∧
      ∀ j, j ≠ q.idx q.tail → q'.slot j = q.slot j) := by
  obtain ⟨hinv, -, -, -⟩ := reach_master hr
  refine ⟨?_, ?_, ?_, ?_⟩
  · intro v q' h
    exact emplace_effect hinv h
  · intro v q' h
    exact emplace_effect hinv (try_emplace_true_emplace h)
  · intro w q' h
    exact pop_effect hinv h
  · intro v0 w q' h
    exact pop_effect hinv (hinv.try_pop_true_pop h)

theorem C3_turn_protocol_witness :
    (q1e.slot (q1e.idx q1e.head)).turn = q1e.turn q1e.head * 2 ∧
    (q1f.slot (q1e.idx q1e.head)).turn = q1e.turn q1e.head * 2 + 1 ∧
    (q1f.slot (q1e.idx q1e.head)).storage = some 5 ∧
    ∀ j, j ≠ q1e.idx q1e.head → q1f.slot j = q1e.slot j :=
  (C3_turn_protocol reach_q1e).1 5 q1f (by decide)

/-- Claim C4: in every reachable state the number of odd-turn slots equals
the number of completed successful enqueues minus completed successful
dequeues, and that count lies in [0, capacity]; every operation preserves
this (reachability closes over all four operations). -/
theorem C4_odd_count {α : Type} {q : MPMCQueue α} {ne nd : Nat}
    (hr : Reach α q ne nd) :
    nd ≤ ne ∧ q.countOdd = ne - nd ∧ ne - nd ≤ q.capacity := by
  obtain ⟨hinv, hh, ht, hco⟩ := reach_master hr
  have h1 := hinv.tail_le
  have h2 := hinv.head_le
  exact ⟨by omega, hco, by omega⟩

theorem C4_odd_count_witness :
    0 ≤ 1 ∧ q1f.countOdd = 1 - 0 ∧ 1 - 0 ≤ q1f.capacity :=
  C4_odd_count reach_q1f

/-- Claim C5: the blocking operations have no failure result: in every
reachable state that is not full, emplace (hence push) completes and
enqueues its element, and in every reachable state that is not empty, pop
completes and returns an element. -/
theorem C5_blocking_never_fails {α : Type} {q : MPMCQueue α} {ne nd : Nat}
    (hr : Reach α q ne nd) :
    (∀ v : α, q.head - q.tail < q.capacity →
      ∃ q', q.emplace v = some q' ∧ (q'.slot (q.idx q.head)).storage = some v) ∧
    (q.tail < q.head →
      ∃ w q', q.pop = some (w, q') ∧ (q.slot (q.idx q.tail)).storage = some w) := by
  obtain ⟨hinv, -, -, -⟩ := reach_master hr
  constructor
  · intro v hnf
    obtain ⟨q', he⟩ := hinv.emplace_total v hnf
    exact ⟨q', he, (emplace_effect hinv he).2.2.1⟩
  · intro hne
    obtain ⟨w, q', hp⟩ := hinv.pop_total hne
    exact ⟨w, q', hp, (pop_effect hinv hp).2.2.1⟩

theorem C5_blocking_never_fails_witness :
    (∃ q', q1e.emplace 5 = some q' ∧ (q'.slot (q1e.idx q1e.head)).storage = some 5) ∧
    (∃ w q', q1f.pop = some (w, q') ∧ (q1f.slot (q1f.idx q1f.tail)).storage = some w) :=
  ⟨(C5_blocking_never_fails reach_q1e).1 5 (by decide),
   (C5_blocking_never_fails reach_q1f).2 (by decide)⟩

/-- Claim C6: a failed try_emplace (hence try_push) leaves the queue state
completely unchanged (no head ticket claimed, no element constructed, no
slot turn modified), and a failed try_pop leaves the queue state and the
out-parameter unchanged. -/
theorem C6_failed_try_frame {α : Type} (q : MPMCQueue α) (v v0 : α) :
    ((q.try_emplace v).1 = false → (q.try_emplace v).2 = q) ∧
    ((q.try_pop v0).1 = false →
      (q.try_pop v0).2.2 = q ∧ (q.try_pop v0).2.1 = v0) :=
  ⟨try_emplace_failed_frame q v,
   fun h => ⟨(try_pop_failed_frame q v0 h).2, (try_pop_failed_frame q v0 h).1⟩⟩

theorem C6_failed_try_frame_witness :
    (q1f.try_emplace 7).2 = q1f ∧
      ((q1e.try_pop 3).2.2 = q1e ∧ (q1e.try_pop 3).2.1 = 3) :=
  ⟨(C6_failed_try_frame q1f 7 0).1 (by decide),
   (C6_failed_try_frame q1e 7 3).2 (by decide)⟩

/-- Claim C7: construction with capacity < 1 raises the invalid-capacity
error and produces no queue; for every capacity ≥ 1 construction succeeds
(allocation success assumed) with head = tail = 0 and every slot at
turn = 0 holding no element. -/
theorem C7_constructor (α : Type) (c : Nat) :
    (c < 1 → MPMCQueue.mkQueue α c = .error .invalidCapacity) ∧
    (1 ≤ c → ∃ q, MPMCQueue.mkQueue α c = .ok q ∧ q.capacity = c ∧
      q.head = 0 ∧ q.tail = 0 ∧ q.slots.length = c ∧
      ∀ i, i < c → (q.slot i).turn = 0 ∧ (q.slot i).storage = none) := by
  constructor
  · intro hc
    simp only [MPMCQueue.mkQueue]
    rw [if_pos hc]
  · intro hc
    refine ⟨{ capacity := c,
              slots := List.replicate c { turn := 0, storage := none },
              head := 0, tail := 0 }, ?_, rfl, rfl, rfl, by simp, ?_⟩
    · simp only [MPMCQueue.mkQueue]
      rw [if_neg (by omega)]
    · intro i hi
      constructor <;>
        (simp only [MPMCQueue.slot]; rw [getD_replicate_lemma c i hi])

theorem C7_constructor_witness :
    (MPMCQueue.mkQueue Nat 0 = .error .invalidCapacity) ∧
      ∃ q, MPMCQueue.mkQueue Nat 1 = .ok q ∧ q.capacity = 1 ∧
        q.head = 0 ∧ q.tail = 0 ∧ q.slots.length = 1 ∧
        ∀ i, i < 1 → (q.slot i).turn = 0 ∧ (q.slot i).storage = none :=
  ⟨(C7_constructor Nat 0).1 (by decide), (C7_constructor Nat 1).2 (by decide)⟩

/-- Claim C8: destruction destroys exactly the residual live elements: in
every reachable state, the queue destructor calls destroy once per
odd-turn slot (which indeed holds a constructed element) and never on an
even-turn slot, and over the lifetime the number of constructions (one
per successful enqueue) equals the number of destructions (one per
successful dequeue plus one per full slot destroyed at queue
destruction). -/
theorem C8_destructor {α : Type} {q : MPMCQueue α} {ne nd : Nat}
    (hr : Reach α q ne nd) :
    q.dtorTotal = q.countOdd ∧
    (∀ i, i < q.capacity →
      ((q.slot i).turn % 2 = 1 → (q.slot i).storage.isSome) ∧
      ((q.slot i).turn % 2 = 1 → Slot.dtorCalls (q.slot i) = 1) ∧
      ((q.slot i).turn % 2 = 0 → Slot.dtorCalls (q.slot i) = 0)) ∧
    ne = nd + q.dtorTotal := by
  obtain ⟨hinv, hh, ht, hco⟩ := reach_master hr
  have hd := dtorTotal_eq_countOdd q
  refine ⟨hd, ?_, ?_⟩
  · intro i hi
    refine ⟨fun ho => (hinv.occ i hi).mpr ho, fun ho => ?_, fun he => ?_⟩
    · unfold Slot.dtorCalls
      rw [if_pos ho]
    · unfold Slot.dtorCalls
      rw [if_neg (by omega)]
  · have := hinv.tail_le
    rw [hd, hco]
    omega

theorem C8_destructor_witness :
    q1f.dtorTotal = q1f.countOdd ∧
    (∀ i, i < q1f.capacity →
      ((q1f.slot i).turn % 2 = 1 → (q1f.slot i).storage.isSome) ∧
      ((q1f.slot i).turn % 2 = 1 → Slot.dtorCalls (q1f.slot i) = 1) ∧
      ((q1f.slot i).turn % 2 = 0 → Slot.dtorCalls (q1f.slot i) = 0)) ∧
    1 = 0 + q1f.dtorTotal :=
  C8_destructor reach_q1f

/-- Claim C9: whenever the respective precondition holds (not full for
enqueue, not empty for dequeue) in a reachable state, the non-blocking
variant succeeds and produces exactly the state (and element) of the
blocking variant: try_emplace agrees with emplace and try_pop with pop. -/
theorem C9_try_refines_blocking {α : Type} {q : MPMCQueue α} {ne nd : Nat}
    (hr : Reach α q ne nd) :
    (∀ v : α, q.head - q.tail < q.capacity →
      ∃ q', q.emplace v = some q' ∧ q.try_emplace v = (true, q')) ∧
    (q.tail < q.head →
      ∃ w q', q.pop = some (w, q') ∧ ∀ v0, q.try_pop v0 = (true, w, q')) := by
  obtain ⟨hinv, -, -, -⟩ := reach_master hr
  constructor
  · intro v hnf
    obtain ⟨q', he⟩ := hinv.emplace_total v hnf
    refine ⟨q', he, ?_⟩
    have ht := try_emplace_eq q v
    rw [he] at ht
    exact ht
  · intro hne
    obtain ⟨w, q', hp⟩ := hinv.pop_total hne
    refine ⟨w, q', hp, ?_⟩
    intro v0
    have ht := try_pop_eq q v0 hinv.try_pop_hocc
    rw [hp] at ht
    exact ht

theorem C9_try_refines_blocking_witness :
    (∃ q', q1e.emplace 5 = some q' ∧ q1e.try_emplace 5 = (true, q')) ∧
    (∃ w q', q1f.pop = some (w, q') ∧ ∀ v0, q1f.try_pop v0 = (true, w, q')) :=
  ⟨(C9_try_refines_blocking reach_q1e).1 5 (by decide),
   (C9_try_refines_blocking reach_q1f).2 (by decide)⟩

/-- Claim C10: a failed try_pop never assigns to the caller's
out-parameter: for every queue state and every initial value v0, if
try_pop reports failure the out-parameter still holds v0. -/
theorem C10_failed_try_pop_out {α : Type} (q : MPMCQueue α) (v0 : α)
    (h : (q.try_pop v0).1 = false) : (q.try_pop v0).2.1 = v0 :=
  (try_pop_failed_frame q v0 h).1

theorem C10_failed_try_pop_out_witness :
    (q1e.try_pop 42).2.1 = 42 :=
  C10_failed_try_pop_out q1e 42 (by decide)

end MPMC
